import Mathlib

/-!
Verification of the NEBULA steganography core (`src/utils/steganography.js`,
`src/hooks/useImageStego.js`, `src/hooks/useAudioStego.js`).

Modelling conventions for the shallow embedding:
* JavaScript strings are sequences of UTF-16 code units, modelled as `List Nat`
  (one entry per `charCodeAt` value).
* Binary strings of '0'/'1' characters are modelled as `List Bool`.
* `Uint8ClampedArray` pixel buffers are `List Nat` with entries `< 256`;
  `Int16Array` sample buffers are `List Nat` holding the 16-bit patterns of
  the samples (entries `< 65536`), which is exact for the bit-level claims.
* A JavaScript function that can `throw` returns a `JsResult`.
* The external CryptoJS AES cipher is not repository code; the functions that
  use it (`encryptText`, `decryptText`) are parameterised by abstract
  encryption/decryption functions, and theorems state the hypotheses the
  library guarantees (decryption with the same password inverts encryption,
  Base64 ciphertext alphabet).
-/

/-- Result of a JavaScript computation that may `throw`. -/
inductive JsResult (α : Type) where
  | thrown : JsResult α
  | value : α → JsResult α
deriving DecidableEq, Repr

/-- Value of a binary-digit string, most significant bit first
(JS `parseInt(s, 2)` on a nonempty string of 0s and 1s). -/
def bitsToNat (bits : List Bool) : Nat :=
  bits.foldl (fun a b => 2 * a + (if b then 1 else 0)) 0

/-- Fueled worker for `natBits`; the fuel argument only makes the
division-by-two recursion structural. -/
def natBitsGo : Nat → Nat → List Bool
  | _, 0 => []
  | 0, _ + 1 => []
  | fuel + 1, n + 1 => natBitsGo fuel ((n + 1) / 2) ++ [decide ((n + 1) % 2 = 1)]

/-- Binary digits of `n`, most significant first (JS `n.toString(2)` for `n > 0`). -/
def natBits (n : Nat) : List Bool := natBitsGo n n

/-- JS `n.toString(2)`: the digit string "0" for zero, otherwise the binary digits. -/
def natToBinary (n : Nat) : List Bool := if n = 0 then [false] else natBits n

/-- JS `s.padStart(w, '0')` on a digit string: left-pad with zeros up to width
`w`; a longer string is returned unchanged. -/
def padStartZeros (w : Nat) (l : List Bool) : List Bool :=
  List.replicate (w - l.length) false ++ l

/-- `stringToBinary` (steganography.js:71): for each character, take
`charCodeAt`, convert with `toString(2)` and `padStart(8, '0')`, and
concatenate.  Note `padStart` does not truncate codes above 255. -/
def stringToBinary : List Nat → List Bool
  | [] => []
  | c :: rest => padStartZeros 8 (natToBinary c) ++ stringToBinary rest

/-- `binaryToString` (steganography.js:90): consume 8 bits at a time, stop on
a trailing group shorter than 8 bits or on a zero byte (NUL terminator). -/
def binaryToString : List Bool → List Nat
  | b0 :: b1 :: b2 :: b3 :: b4 :: b5 :: b6 :: b7 :: rest =>
    let charCode := bitsToNat [b0, b1, b2, b3, b4, b5, b6, b7]
    if charCode = 0 then [] else charCode :: binaryToString rest
  | _ => []

/-- `END_DELIMITER` (steganography.js:115): the 16-bit marker 1111111111111110. -/
def END_DELIMITER : List Bool := List.replicate 15 true ++ [false]

/-- `prepareDataForEmbedding` (steganography.js:122): 32-bit length header
(bit-length of the payload, `padStart(32, '0')`), payload bits, delimiter. -/
def prepareDataForEmbedding (encryptedText : List Nat) : List Bool :=
  let binary := stringToBinary encryptedText
  let lengthBinary := padStartZeros 32 (natToBinary binary.length)
  lengthBinary ++ binary ++ END_DELIMITER

/-- `extractDataFromBinary` (steganography.js:136).  On the empty input, JS
`parseInt('', 2)` is `NaN`: both range checks compare false against `NaN`, the
extracted slice `binary.slice(32, 32 + NaN)` is empty, and the function
returns the empty string (not `null`); that is the first branch below. -/
def extractDataFromBinary (binary : List Bool) : Option (List Nat) :=
  if binary = [] then some []
  else
    let dataLength := bitsToNat (binary.take 32)
    if dataLength = 0 ∨ dataLength > binary.length - 32 then none
    else some (binaryToString ((binary.drop 32).take dataLength))

/-- `calculateImageCapacity` (steganography.js:167):
`max(0, floor((width*height - 48) / 8))`; truncated `Nat` subtraction gives
exactly the `max(0, ...)` clamping of the JS code. -/
def calculateImageCapacity (width height : Nat) : Nat :=
  (width * height - 48) / 8

/-- `canFitInImage` (steganography.js:185). -/
def canFitInImage (encryptedText : List Nat) (width height : Nat) : Bool :=
  encryptedText.length ≤ calculateImageCapacity width height

/-- Character codes of "NEBULA::". -/
def markerPre : List Nat := [78, 69, 66, 85, 76, 65, 58, 58]

/-- Character codes of "::NEBULA". -/
def markerSuf : List Nat := [58, 58, 78, 69, 66, 85, 76, 65]

/-- `encryptText` (steganography.js:18), parameterised by the external
CryptoJS AES encryption `aesE` (ciphertext of a marked text under a
password).  Throws when either argument is the empty string. -/
def encryptText (aesE : List Nat → List Nat → List Nat)
    (plainText password : List Nat) : JsResult (List Nat) :=
  if plainText = [] ∨ password = [] then .thrown
  else .value (aesE (markerPre ++ plainText ++ markerSuf) password)

/-- `decryptText` (steganography.js:38), parameterised by the external
CryptoJS AES decryption `aesD`; `aesD ct pw = none` models a decryption that
throws or yields no UTF-8 text (caught, returning `null`).  Throws when either
argument is the empty string; otherwise checks the NEBULA markers and
unwraps with `decrypted.slice(8, -8)`. -/
def decryptText (aesD : List Nat → List Nat → Option (List Nat))
    (encryptedText password : List Nat) : JsResult (Option (List Nat)) :=
  if encryptedText = [] ∨ password = [] then .thrown
  else
    match aesD encryptedText password with
    | none => .value none
    | some decrypted =>
      if markerPre.isPrefixOf decrypted && markerSuf.isSuffixOf decrypted then
        .value (some ((decrypted.take (decrypted.length - 8)).drop 8))
      else .value none

/-- JS `(v & 0xFE) | bit` on a `Uint8ClampedArray` byte (useImageStego.js:524). -/
def jsByteWrite (v : Nat) (bit : Bool) : Nat :=
  (v &&& 254) ||| (if bit then 1 else 0)

/-- JS `(v & 0xFFFE) | bit` on an `Int16Array` sample pattern
(useAudioStego.js:459). -/
def jsWrite16 (v : Nat) (bit : Bool) : Nat :=
  (v &&& 65534) ||| (if bit then 1 else 0)

/-- The image embedding loop (useImageStego.js:517-526): for each bit index
`i < bits.length`, write at `blueIndex = 4*i + 2` when `blueIndex` is inside
the buffer.  The loop writes at pairwise-distinct indices, so it is rendered
per buffer position: position `j` (counted from `j₀`) is written exactly when
it is a blue byte (`j % 4 = 2`) with pixel index `j / 4 < bits.length`. -/
def embedBlueFrom (bits : List Bool) (j : Nat) : List Nat → List Nat
  | [] => []
  | v :: rest =>
    (if j % 4 = 2 ∧ j / 4 < bits.length then jsByteWrite v (bits.getD (j / 4) false) else v)
      :: embedBlueFrom bits (j + 1) rest

/-- Body of the image `encode` embedding step. -/
def embedBitsImage (pixels : List Nat) (bits : List Bool) : List Nat :=
  embedBlueFrom bits 0 pixels

/-- The capacity check plus embedding of the image `encode`
(useImageStego.js:509-526): reject with "Message too long" when the frame
exceeds `width*height` bits, otherwise embed. -/
def imageEncode (width height : Nat) (pixels : List Nat) (bits : List Bool) :
    Option (List Nat) :=
  if bits.length > width * height then none
  else some (embedBitsImage pixels bits)

/-- LSB extraction of the image `decode` (useImageStego.js:573-583): for each
pixel index `i < width*height`, append the low bit of the blue byte when
`4*i + 2` is inside the buffer. -/
def extractBitsImage (pixels : List Nat) (width height : Nat) : List Bool :=
  (List.range (width * height)).filterMap fun i =>
    if 4 * i + 2 < pixels.length then
      some (decide ((pixels.getD (4 * i + 2) 0) &&& 1 = 1))
    else none

/-- The audio embedding loop (useAudioStego.js:455-460): sample `i` is written
exactly when `i < bits.length`. -/
def embedAudioFrom (bits : List Bool) (i : Nat) : List Nat → List Nat
  | [] => []
  | v :: rest =>
    (if i < bits.length then jsWrite16 v (bits.getD i false) else v)
      :: embedAudioFrom bits (i + 1) rest

/-- The capacity check plus embedding of the audio `encode`
(useAudioStego.js:447-460). -/
def audioEncode (samples : List Nat) (bits : List Bool) : Option (List Nat) :=
  if bits.length > samples.length then none
  else some (embedAudioFrom bits 0 samples)

/-- The 32 header bits read by the audio `decode` (useAudioStego.js:524-527). -/
def audioHeaderBits (samples : List Nat) : List Bool :=
  (List.range 32).map fun i => decide ((samples.getD i 0) &&& 1 = 1)

/-- Length validation and message-bit extraction of the audio `decode`
(useAudioStego.js:513-544): reject buffers shorter than 48 samples, read the
32-bit header, reject `L <= 0`, `L > samples.length - 48` and `L > 1000000`,
then collect the low bits at indices `32 .. 32+L` (the loop breaks at the end
of the buffer, rendered by the in-bounds guard). -/
def audioDecodeFrame (samples : List Nat) : Option (List Bool) :=
  if samples.length < 48 then none
  else
    let dataLength := bitsToNat (audioHeaderBits samples)
    if dataLength = 0 ∨ dataLength > samples.length - 48 ∨ dataLength > 1000000 then none
    else
      some ((List.range dataLength).filterMap fun k =>
        if 32 + k < samples.length then
          some (decide ((samples.getD (32 + k) 0) &&& 1 = 1))
        else none)

/-- The audio `decode` path up to the recovered ciphertext
(useAudioStego.js:513-556): frame extraction, then `binaryToString`, rejecting
an empty result (`if (!encryptedText)`). -/
def audioDecode (samples : List Nat) : Option (List Nat) :=
  match audioDecodeFrame samples with
  | none => none
  | some messageBinary =>
    let encryptedText := binaryToString messageBinary
    if encryptedText = [] then none else some encryptedText

/-- Emotion labels (`EMOTIONS`, steganography.js:226). -/
inductive Emotion where
  | warm
  | cold
  | neutral
deriving DecidableEq, Repr

/-- Character codes of a Lean string literal, used to transcribe the JS word
lists and test texts. -/
def strCodes (s : String) : List Nat := s.data.map Char.toNat

/-- JS `toLowerCase` restricted to ASCII letters, which covers the two word
lists (all lowercase ASCII). -/
def jsToLower (c : Nat) : Nat := if 65 ≤ c ∧ c ≤ 90 then c + 32 else c

/-- Lower-cased text (`text.toLowerCase()`). -/
def toLowerCase (s : List Nat) : List Nat := s.map jsToLower

/-- `WARM_WORDS` (steganography.js:235). -/
def WARM_WORDS : List (List Nat) :=
  [strCodes "love", strCodes "hope", strCodes "light", strCodes "sun",
   strCodes "dream", strCodes "happy", strCodes "joy", strCodes "smile",
   strCodes "warm", strCodes "heart", strCodes "beautiful", strCodes "bright",
   strCodes "shine", strCodes "glow", strCodes "kind", strCodes "friend",
   strCodes "peace", strCodes "calm", strCodes "gentle", strCodes "sweet",
   strCodes "tender", strCodes "embrace", strCodes "sunshine", strCodes "golden",
   strCodes "bless", strCodes "cherish", strCodes "comfort", strCodes "delight",
   strCodes "faith", strCodes "grace", strCodes "harmony", strCodes "inspire",
   strCodes "laugh", strCodes "magic", strCodes "miracle", strCodes "passion",
   strCodes "radiant", strCodes "serene", strCodes "thankful", strCodes "treasure",
   strCodes "wonder", strCodes "family", strCodes "kiss", strCodes "hug",
   strCodes "wedding", strCodes "baby", strCodes "spring", strCodes "summer",
   strCodes "flower", strCodes "bloom", strCodes "sunrise", strCodes "morning",
   strCodes "paradise", strCodes "angel"]

/-- `COLD_WORDS` (steganography.js:246). -/
def COLD_WORDS : List (List Nat) :=
  [strCodes "sad", strCodes "dark", strCodes "night", strCodes "alone",
   strCodes "cold", strCodes "pain", strCodes "fear", strCodes "cry",
   strCodes "lost", strCodes "shadow", strCodes "death", strCodes "hate",
   strCodes "anger", strCodes "storm", strCodes "thunder", strCodes "rain",
   strCodes "tears", strCodes "broken", strCodes "lonely", strCodes "empty",
   strCodes "sorrow", strCodes "grief", strCodes "despair", strCodes "agony",
   strCodes "bitter", strCodes "bleak", strCodes "doom", strCodes "dread",
   strCodes "fade", strCodes "fall", strCodes "frozen", strCodes "grave",
   strCodes "haunt", strCodes "hurt", strCodes "ice", strCodes "melancholy",
   strCodes "mourn", strCodes "nightmare", strCodes "obscure", strCodes "pale",
   strCodes "phantom", strCodes "ruin", strCodes "silent", strCodes "suffer",
   strCodes "tragic", strCodes "void", strCodes "weep", strCodes "wither",
   strCodes "wound", strCodes "winter", strCodes "midnight", strCodes "fog",
   strCodes "mist", strCodes "ghost", strCodes "scream", strCodes "black",
   strCodes "grey"]

/-- JS `haystack.includes(needle)`: `needle` occurs as a contiguous substring
(at some position, `needle` is a prefix of the remaining haystack). -/
def jsIncludes (needle : List Nat) : List Nat → Bool
  | [] => needle.isPrefixOf ([] : List Nat)
  | c :: rest => needle.isPrefixOf (c :: rest) || jsIncludes needle rest

/-- Warm-word score of a lower-cased text (the first counting loop of
`detectEmotion`, steganography.js:269-273). -/
def warmScore (text : List Nat) : Nat :=
  WARM_WORDS.countP fun w => jsIncludes w (toLowerCase text)

/-- Cold-word score (steganography.js:276-280). -/
def coldScore (text : List Nat) : Nat :=
  COLD_WORDS.countP fun w => jsIncludes w (toLowerCase text)

/-- `detectEmotion` (steganography.js:262-290). -/
def detectEmotion (text : List Nat) : Emotion :=
  if warmScore text > coldScore text ∧ warmScore text > 0 then .warm
  else if coldScore text > warmScore text ∧ coldScore text > 0 then .cold
  else .neutral

/-- Modelled from the spec: the sequence of 8-bit groups of a bit string with
their numeric values, dropping a trailing group shorter than 8 bits.  Used
only to compare `binaryToString` against the specified "consume 8-bit groups,
stop at the first zero group" behaviour. -/
def byteChunks : List Bool → List Nat
  | b0 :: b1 :: b2 :: b3 :: b4 :: b5 :: b6 :: b7 :: rest =>
    bitsToNat [b0, b1, b2, b3, b4, b5, b6, b7] :: byteChunks rest
  | _ => []

/-! ### Bit-string arithmetic lemmas -/

theorem bitsToNat_from (l : List Bool) :
    ∀ a : Nat, l.foldl (fun a b => 2 * a + (if b then 1 else 0)) a
      = a * 2 ^ l.length + bitsToNat l := by
  induction l with
  | nil => intro a; simp [bitsToNat]
  | cons b l ih =>
    intro a
    simp only [List.foldl_cons, List.length_cons, bitsToNat] at *
    rw [ih, ih (2 * 0 + (if b then 1 else 0))]
    ring

theorem bitsToNat_append (l₁ l₂ : List Bool) :
    bitsToNat (l₁ ++ l₂) = bitsToNat l₁ * 2 ^ l₂.length + bitsToNat l₂ := by
  unfold bitsToNat
  rw [List.foldl_append]
  exact bitsToNat_from l₂ _

theorem bitsToNat_replicate_false (m : Nat) :
    bitsToNat (List.replicate m false) = 0 := by
  induction m with
  | zero => rfl
  | succ m ih =>
    have : List.replicate (m + 1) false = [false] ++ List.replicate m false := by
      simp [List.replicate_succ]
    rw [this, bitsToNat_append, ih]
    simp [bitsToNat]

theorem bitsToNat_padStart (w : Nat) (l : List Bool) :
    bitsToNat (padStartZeros w l) = bitsToNat l := by
  unfold padStartZeros
  rw [bitsToNat_append, bitsToNat_replicate_false]
  ring

theorem padStartZeros_length (w : Nat) (l : List Bool) :
    (padStartZeros w l).length = max w l.length := by
  simp [padStartZeros]
  omega

theorem natBitsGo_congr : ∀ n f₁ f₂, n ≤ f₁ → n ≤ f₂ → natBitsGo f₁ n = natBitsGo f₂ n := by
  intro n
  induction n using Nat.strong_induction_on with
  | _ n ih =>
    intro f₁ f₂ h₁ h₂
    cases n with
    | zero => cases f₁ <;> cases f₂ <;> rfl
    | succ m =>
      cases f₁ with
      | zero => omega
      | succ g₁ =>
        cases f₂ with
        | zero => omega
        | succ g₂ =>
          simp only [natBitsGo]
          rw [ih ((m + 1) / 2) (by omega) g₁ g₂ (by omega) (by omega)]

theorem natBits_pos {n : Nat} (h : 0 < n) :
    natBits n = natBits (n / 2) ++ [decide (n % 2 = 1)] := by
  obtain ⟨m, rfl⟩ : ∃ m, n = m + 1 := ⟨n - 1, by omega⟩
  show natBitsGo (m + 1) (m + 1) = _
  simp only [natBitsGo]
  rw [natBitsGo_congr ((m + 1) / 2) m ((m + 1) / 2) (by omega) (by omega)]
  rfl

theorem bitsToNat_natBits (n : Nat) : bitsToNat (natBits n) = n := by
  induction n using Nat.strong_induction_on with
  | _ n ih =>
    rcases Nat.eq_zero_or_pos n with h | h
    · subst h; rfl
    · rw [natBits_pos h, bitsToNat_append, ih (n / 2) (by omega)]
      simp only [List.length_cons, List.length_nil, pow_one, bitsToNat, List.foldl_cons,
        List.foldl_nil]
      by_cases hp : n % 2 = 1 <;> simp [hp] <;> omega

theorem natBits_length_le {n k : Nat} (h : n < 2 ^ k) : (natBits n).length ≤ k := by
  induction n using Nat.strong_induction_on generalizing k with
  | _ n ih =>
    rcases Nat.eq_zero_or_pos n with h0 | h0
    · subst h0; simp [natBits, natBitsGo]
    · have hk : k ≠ 0 := by
        rintro rfl
        simp at h
        omega
      obtain ⟨k', rfl⟩ : ∃ k', k = k' + 1 := ⟨k - 1, by omega⟩
      rw [natBits_pos h0]
      have hlt : n / 2 < 2 ^ k' := by
        have h2 : (2 : Nat) ^ (k' + 1) = 2 ^ k' * 2 := pow_succ 2 k'
        omega
      have := ih (n / 2) (by omega) hlt
      simp [List.length_append]
      omega

theorem natBits_length_ge {n k : Nat} (h : 2 ^ k ≤ n) : k + 1 ≤ (natBits n).length := by
  induction n using Nat.strong_induction_on generalizing k with
  | _ n ih =>
    have h0 : 0 < n := lt_of_lt_of_le (Nat.pos_pow_of_pos k (by omega)) h
    rw [natBits_pos h0]
    cases k with
    | zero => simp [List.length_append]
    | succ k' =>
      have hge : 2 ^ k' ≤ n / 2 := by
        have h2 : (2 : Nat) ^ (k' + 1) = 2 ^ k' * 2 := pow_succ 2 k'
        omega
      have := ih (n / 2) (by omega) hge
      simp [List.length_append]
      omega

theorem natBits_two_pow_length (k : Nat) : (natBits (2 ^ k)).length = k + 1 := by
  have h1 := natBits_length_ge (n := 2 ^ k) (k := k) le_rfl
  have h2 := natBits_length_le (n := 2 ^ k) (k := k + 1)
    (by exact pow_lt_pow_right₀ (by omega) (by omega))
  omega

theorem bitsToNat_natToBinary (n : Nat) : bitsToNat (natToBinary n) = n := by
  unfold natToBinary
  split
  · subst_vars; rfl
  · exact bitsToNat_natBits n

theorem natToBinary_length_le {n k : Nat} (hk : 1 ≤ k) (h : n < 2 ^ k) :
    (natToBinary n).length ≤ k := by
  unfold natToBinary
  split
  · simpa using hk
  · exact natBits_length_le h

/-! ### String/bit conversion lemmas -/

theorem charBlock_length {c : Nat} (h : c ≤ 255) :
    (padStartZeros 8 (natToBinary c)).length = 8 := by
  rw [padStartZeros_length]
  have := natToBinary_length_le (k := 8) (by omega) (n := c) (by omega)
  omega

theorem charBlock_length_ge (c : Nat) :
    8 ≤ (padStartZeros 8 (natToBinary c)).length := by
  rw [padStartZeros_length]
  omega

theorem charBlock_length_gt {c : Nat} (h : 256 ≤ c) :
    9 ≤ (padStartZeros 8 (natToBinary c)).length := by
  rw [padStartZeros_length]
  have h8 : (2 : Nat) ^ 8 ≤ c := by omega
  have h0 : c ≠ 0 := by omega
  have := natBits_length_ge h8
  unfold natToBinary
  simp [h0]
  omega

theorem charBlock_val (c : Nat) :
    bitsToNat (padStartZeros 8 (natToBinary c)) = c := by
  rw [bitsToNat_padStart, bitsToNat_natToBinary]

theorem stringToBinary_length_of_bytes {s : List Nat} (h : ∀ c ∈ s, c ≤ 255) :
    (stringToBinary s).length = 8 * s.length := by
  induction s with
  | nil => rfl
  | cons c rest ih =>
    simp only [stringToBinary, List.length_append, List.length_cons]
    rw [charBlock_length (h c (by simp)), ih (fun x hx => h x (by simp [hx]))]
    ring

theorem stringToBinary_length_ge (s : List Nat) :
    8 * s.length ≤ (stringToBinary s).length := by
  induction s with
  | nil => simp
  | cons c rest ih =>
    simp only [stringToBinary, List.length_append, List.length_cons]
    have := charBlock_length_ge c
    omega

theorem stringToBinary_length_gt {s : List Nat} {c : Nat} (hc : c ∈ s) (h : 256 ≤ c) :
    8 * s.length < (stringToBinary s).length := by
  induction s with
  | nil => simp at hc
  | cons d rest ih =>
    simp only [stringToBinary, List.length_append, List.length_cons]
    rcases List.mem_cons.mp hc with rfl | hmem
    · have h9 := charBlock_length_gt h
      have := stringToBinary_length_ge rest
      omega
    · have := ih hmem
      have := charBlock_length_ge d
      omega

theorem binaryToString_block {block rest : List Bool} (h : block.length = 8) :
    binaryToString (block ++ rest) =
      if bitsToNat block = 0 then [] else bitsToNat block :: binaryToString rest := by
  rcases block with _ | ⟨b0, block⟩; · simp at h
  rcases block with _ | ⟨b1, block⟩; · simp at h
  rcases block with _ | ⟨b2, block⟩; · simp at h
  rcases block with _ | ⟨b3, block⟩; · simp at h
  rcases block with _ | ⟨b4, block⟩; · simp at h
  rcases block with _ | ⟨b5, block⟩; · simp at h
  rcases block with _ | ⟨b6, block⟩; · simp at h
  rcases block with _ | ⟨b7, block⟩; · simp at h
  rcases block with _ | ⟨b8, block⟩
  · rfl
  · simp at h

theorem binaryToString_stringToBinary {s : List Nat} (h : ∀ c ∈ s, 0 < c ∧ c ≤ 255) :
    binaryToString (stringToBinary s) = s := by
  induction s with
  | nil => rfl
  | cons c rest ih =>
    have hc := h c (by simp)
    simp only [stringToBinary]
    rw [binaryToString_block (charBlock_length hc.2), charBlock_val]
    have hne : c ≠ 0 := by omega
    simp [hne, ih (fun x hx => h x (by simp [hx]))]

theorem byteChunks_block {block rest : List Bool} (h : block.length = 8) :
    byteChunks (block ++ rest) = bitsToNat block :: byteChunks rest := by
  rcases block with _ | ⟨b0, block⟩; · simp at h
  rcases block with _ | ⟨b1, block⟩; · simp at h
  rcases block with _ | ⟨b2, block⟩; · simp at h
  rcases block with _ | ⟨b3, block⟩; · simp at h
  rcases block with _ | ⟨b4, block⟩; · simp at h
  rcases block with _ | ⟨b5, block⟩; · simp at h
  rcases block with _ | ⟨b6, block⟩; · simp at h
  rcases block with _ | ⟨b7, block⟩; · simp at h
  rcases block with _ | ⟨b8, block⟩
  · rfl
  · simp at h

/-! ### Bitwise write lemmas -/

theorem maskedWrite {k : Nat} (hk : 1 ≤ k) {v : Nat} (hv : v < 2 ^ k) (b : Bool) :
    (v &&& (2 ^ k - 2)) ||| (if b then 1 else 0) = 2 * (v / 2) + (if b then 1 else 0) := by
  have hsplit : (2 : Nat) ^ k = 2 * 2 ^ (k - 1) := by
    conv_lhs => rw [show k = (k - 1) + 1 by omega]
    rw [pow_succ]
    ring
  have hmask : (2 : Nat) ^ k - 2 = 2 * (2 ^ (k - 1) - 1) := by
    have h1 : (1 : Nat) ≤ 2 ^ (k - 1) := Nat.one_le_two_pow
    omega
  apply Nat.eq_of_testBit_eq
  intro i
  cases i with
  | zero =>
    rw [Nat.testBit_or, Nat.testBit_and]
    simp only [Nat.testBit_zero]
    have h1 : (1 : Nat) ≤ 2 ^ (k - 1) := Nat.one_le_two_pow
    have h2 : (2 ^ k - 2) % 2 = 0 := by omega
    cases b
    · have h3 : 2 * (v / 2) % 2 = 0 := by omega
      simp [h2, h3]
    · have h3 : (2 * (v / 2) + 1) % 2 = 1 := by omega
      simp [h2, h3]
  | succ i =>
    rw [Nat.testBit_or, Nat.testBit_and]
    have hb : (if b then 1 else 0 : Nat).testBit (i + 1) = false := by
      apply Nat.testBit_lt_two_pow
      have h4 : (2 : Nat) ≤ 2 ^ (i + 1) := by
        calc (2 : Nat) = 2 ^ 1 := by norm_num
        _ ≤ 2 ^ (i + 1) := Nat.pow_le_pow_right (by omega) (by omega)
      have hble : (if b then 1 else 0 : Nat) ≤ 1 := by cases b <;> simp
      omega
    have hmaskbit : (2 ^ k - 2).testBit (i + 1) = decide (i < k - 1) := by
      rw [hmask, Nat.testBit_add_one]
      have : 2 * (2 ^ (k - 1) - 1) / 2 = 2 ^ (k - 1) - 1 := by omega
      rw [this, Nat.testBit_two_pow_sub_one]
    have hrhs : (2 * (v / 2) + (if b then 1 else 0)).testBit (i + 1) = v.testBit (i + 1) := by
      rw [Nat.testBit_add_one, Nat.testBit_add_one]
      have hble : (if b then 1 else 0 : Nat) ≤ 1 := by cases b <;> simp
      have : (2 * (v / 2) + (if b then 1 else 0)) / 2 = v / 2 := by omega
      rw [this]
    rw [hrhs, hb, hmaskbit]
    by_cases hik : i < k - 1
    · simp [hik]
    · have hvb : v.testBit (i + 1) = false := by
        apply Nat.testBit_lt_two_pow
        calc v < 2 ^ k := hv
        _ ≤ 2 ^ (i + 1) := Nat.pow_le_pow_right (by omega) (by omega)
      simp [hik, hvb]

theorem jsByteWrite_eq {v : Nat} (hv : v < 256) (b : Bool) :
    jsByteWrite v b = 2 * (v / 2) + (if b then 1 else 0) := by
  have h := maskedWrite (k := 8) (by norm_num) (v := v) (by norm_num [hv]) b
  norm_num at h
  exact h

theorem jsWrite16_eq {v : Nat} (hv : v < 65536) (b : Bool) :
    jsWrite16 v b = 2 * (v / 2) + (if b then 1 else 0) := by
  have h := maskedWrite (k := 16) (by norm_num) (v := v) (by norm_num [hv]) b
  norm_num at h
  exact h

theorem jsByteWrite_lsb {v : Nat} (hv : v < 256) (b : Bool) :
    decide (jsByteWrite v b &&& 1 = 1) = b := by
  rw [Nat.and_one_is_mod, jsByteWrite_eq hv]
  cases b
  · have h0 : 2 * (v / 2) % 2 = 0 := by omega
    simp [h0]
  · have h1 : (2 * (v / 2) + 1) % 2 = 1 := by omega
    simp [h1]

theorem jsByteWrite_div2 {v : Nat} (hv : v < 256) (b : Bool) :
    jsByteWrite v b / 2 = v / 2 := by
  rw [jsByteWrite_eq hv]
  have hble : (if b then 1 else 0 : Nat) ≤ 1 := by cases b <;> simp
  omega

theorem jsWrite16_div2 {v : Nat} (hv : v < 65536) (b : Bool) :
    jsWrite16 v b / 2 = v / 2 := by
  rw [jsWrite16_eq hv]
  have hble : (if b then 1 else 0 : Nat) ≤ 1 := by cases b <;> simp
  omega

/-! ### Embedding/extraction list lemmas -/

theorem embedBlueFrom_length (bits : List Bool) :
    ∀ (j : Nat) (pixels : List Nat), (embedBlueFrom bits j pixels).length = pixels.length := by
  intro j pixels
  induction pixels generalizing j with
  | nil => rfl
  | cons v rest ih => simp [embedBlueFrom, ih]

theorem embedBlueFrom_getD (bits : List Bool) :
    ∀ (pixels : List Nat) (j i : Nat), i < pixels.length →
    (embedBlueFrom bits j pixels).getD i 0 =
      if (j + i) % 4 = 2 ∧ (j + i) / 4 < bits.length
      then jsByteWrite (pixels.getD i 0) (bits.getD ((j + i) / 4) false)
      else pixels.getD i 0 := by
  intro pixels
  induction pixels with
  | nil => intro j i h; simp at h
  | cons v rest ih =>
    intro j i h
    cases i with
    | zero => simp [embedBlueFrom]
    | succ i' =>
      simp only [embedBlueFrom, List.getD_cons_succ]
      rw [ih (j + 1) i' (by simpa using h)]
      have harith : j + 1 + i' = j + (i' + 1) := by omega
      rw [harith]

theorem embedAudioFrom_length (bits : List Bool) :
    ∀ (i : Nat) (samples : List Nat), (embedAudioFrom bits i samples).length = samples.length := by
  intro i samples
  induction samples generalizing i with
  | nil => rfl
  | cons v rest ih => simp [embedAudioFrom, ih]

theorem embedAudioFrom_getD (bits : List Bool) :
    ∀ (samples : List Nat) (j i : Nat), i < samples.length →
    (embedAudioFrom bits j samples).getD i 0 =
      if j + i < bits.length
      then jsWrite16 (samples.getD i 0) (bits.getD (j + i) false)
      else samples.getD i 0 := by
  intro samples
  induction samples with
  | nil => intro j i h; simp at h
  | cons v rest ih =>
    intro j i h
    cases i with
    | zero => simp [embedAudioFrom]
    | succ i' =>
      simp only [embedAudioFrom, List.getD_cons_succ]
      rw [ih (j + 1) i' (by simpa using h)]
      have harith : j + 1 + i' = j + (i' + 1) := by omega
      rw [harith]

theorem filterMap_if_eq_map {α β : Type} (l : List α) (p : α → Prop) [DecidablePred p]
    (f : α → β) (h : ∀ a ∈ l, p a) :
    (l.filterMap fun a => if p a then some (f a) else none) = l.map f := by
  induction l with
  | nil => rfl
  | cons a l ih =>
    rw [List.filterMap_cons, List.map_cons]
    rw [if_pos (h a (by simp))]
    rw [ih (fun x hx => h x (by simp [hx]))]

theorem extractBitsImage_eq_map {pixels : List Nat} {w h : Nat}
    (hlen : 4 * (w * h) ≤ pixels.length) :
    extractBitsImage pixels w h =
      (List.range (w * h)).map fun i => decide ((pixels.getD (4 * i + 2) 0) &&& 1 = 1) := by
  unfold extractBitsImage
  exact filterMap_if_eq_map _ _ _ (by
    intro i hi
    have := List.mem_range.mp hi
    omega)

theorem extract_embed {pixels : List Nat} {bits : List Bool} {w h : Nat}
    (hpl : pixels.length = 4 * (w * h)) (hby : ∀ v ∈ pixels, v < 256)
    (hcap : bits.length ≤ w * h) :
    ∃ R : List Bool, extractBitsImage (embedBitsImage pixels bits) w h = bits ++ R := by
  have hlenE : (embedBitsImage pixels bits).length = pixels.length :=
    embedBlueFrom_length bits 0 pixels
  have hmap := @extractBitsImage_eq_map (embedBitsImage pixels bits) w h (by omega)
  obtain ⟨d, hd⟩ : ∃ d, w * h = bits.length + d := ⟨w * h - bits.length, by omega⟩
  rw [hmap, hd, List.range_add, List.map_append]
  refine ⟨List.map (fun i => decide ((embedBitsImage pixels bits).getD (4 * i + 2) 0 &&& 1 = 1))
    (List.map (fun x => bits.length + x) (List.range d)), ?_⟩
  congr 1
  apply List.ext_getElem (by simp)
  intro i h1 h2
  simp only [List.getElem_map, List.getElem_range]
  have hi : i < bits.length := by simpa using h2
  have hidx : 4 * i + 2 < pixels.length := by omega
  have hgetd := embedBlueFrom_getD bits pixels 0 (4 * i + 2) hidx
  have hmod : (0 + (4 * i + 2)) % 4 = 2 := by omega
  have hdiv : (0 + (4 * i + 2)) / 4 = i := by omega
  rw [hmod, hdiv] at hgetd
  unfold embedBitsImage
  rw [hgetd, if_pos ⟨rfl, hi⟩]
  have hvmem : pixels.getD (4 * i + 2) 0 ∈ pixels := by
    rw [List.getD_eq_getElem pixels 0 hidx]
    exact List.getElem_mem hidx
  rw [jsByteWrite_lsb (hby _ hvmem)]
  exact List.getD_eq_getElem bits false hi

/-! ### Frame lemmas -/

theorem END_DELIMITER_length : END_DELIMITER.length = 16 := by
  simp [END_DELIMITER]

theorem frame_header_length {n : Nat} (h : n < 2 ^ 32) :
    (padStartZeros 32 (natToBinary n)).length = 32 := by
  rw [padStartZeros_length]
  have := natToBinary_length_le (k := 32) (by omega) h
  omega

theorem frame_parts {ct : List Nat} (hsz : ct.length < 2 ^ 29)
    (hab : ∀ c ∈ ct, c ≤ 255) :
    prepareDataForEmbedding ct =
      padStartZeros 32 (natToBinary (8 * ct.length)) ++ stringToBinary ct ++ END_DELIMITER ∧
    (prepareDataForEmbedding ct).length = 48 + 8 * ct.length := by
  have hpl := stringToBinary_length_of_bytes hab
  have h32 : 8 * ct.length < 2 ^ 32 := by omega
  constructor
  · simp only [prepareDataForEmbedding]
    rw [hpl]
  · simp only [prepareDataForEmbedding, List.length_append]
    rw [hpl, frame_header_length h32, END_DELIMITER_length]
    ring


theorem extractData_of_frame {ct : List Nat} {R : List Bool} (hne : ct ≠ [])
    (hsz : ct.length < 2 ^ 29) (hab : ∀ c ∈ ct, 0 < c ∧ c ≤ 255) :
    extractDataFromBinary (prepareDataForEmbedding ct ++ R) = some ct := by
  have hab' : ∀ c ∈ ct, c ≤ 255 := fun c hc => (hab c hc).2
  obtain ⟨hfr, hflen⟩ := frame_parts hsz hab'
  have hpl := stringToBinary_length_of_bytes hab'
  have h32 : 8 * ct.length < 2 ^ 32 := by omega
  have hhl := frame_header_length h32
  have hctpos : 0 < ct.length := List.length_pos.mpr hne
  have hshape : prepareDataForEmbedding ct ++ R
      = padStartZeros 32 (natToBinary (8 * ct.length))
        ++ (stringToBinary ct ++ (END_DELIMITER ++ R)) := by
    rw [hfr]
    simp [List.append_assoc]
  have hbinlen : (prepareDataForEmbedding ct ++ R).length = 48 + 8 * ct.length + R.length := by
    simp [List.length_append, hflen]
  have hne2 : prepareDataForEmbedding ct ++ R ≠ [] := by
    intro hcontra
    have := congrArg List.length hcontra
    rw [hbinlen] at this
    simp at this
  have htake : (prepareDataForEmbedding ct ++ R).take 32
      = padStartZeros 32 (natToBinary (8 * ct.length)) := by
    rw [hshape]
    exact List.take_left' hhl
  have hdrop : (prepareDataForEmbedding ct ++ R).drop 32
      = stringToBinary ct ++ (END_DELIMITER ++ R) := by
    rw [hshape]
    exact List.drop_left' hhl
  have hval : bitsToNat ((prepareDataForEmbedding ct ++ R).take 32) = 8 * ct.length := by
    rw [htake, bitsToNat_padStart, bitsToNat_natToBinary]
  unfold extractDataFromBinary
  rw [if_neg hne2, hval]
  rw [if_neg (by omega)]
  rw [hdrop, List.take_left' hpl]
  rw [binaryToString_stringToBinary hab]

theorem extractData_none_iff {binary : List Bool} (hne : binary ≠ []) :
    extractDataFromBinary binary = none ↔
      (bitsToNat (binary.take 32) = 0 ∨ binary.length - 32 < bitsToNat (binary.take 32)) := by
  unfold extractDataFromBinary
  rw [if_neg hne]
  constructor
  · intro h
    by_contra hcon
    push_neg at hcon
    rw [if_neg (by omega)] at h
    exact Option.noConfusion h
  · intro h
    rw [if_pos (by omega)]

theorem extractData_some_decode {binary : List Bool} (hne : binary ≠ [])
    (h0 : bitsToNat (binary.take 32) ≠ 0)
    (h1 : bitsToNat (binary.take 32) ≤ binary.length - 32) :
    extractDataFromBinary binary
      = some (binaryToString ((binary.drop 32).take (bitsToNat (binary.take 32)))) := by
  unfold extractDataFromBinary
  rw [if_neg hne, if_neg (by omega)]

/-! ### Audio decode lemmas -/

theorem audioDecodeFrame_none_iff (samples : List Nat) :
    audioDecodeFrame samples = none ↔
      (samples.length < 48 ∨ bitsToNat (audioHeaderBits samples) = 0 ∨
       samples.length - 48 < bitsToNat (audioHeaderBits samples) ∨
       1000000 < bitsToNat (audioHeaderBits samples)) := by
  unfold audioDecodeFrame
  by_cases hlen : samples.length < 48
  · simp [hlen]
  · rw [if_neg hlen]
    constructor
    · intro h
      by_contra hcon
      push_neg at hcon
      rw [if_neg (by omega)] at h
      exact Option.noConfusion h
    · intro h
      rw [if_pos (by omega)]

theorem audioDecodeFrame_some {samples : List Nat} {msg : List Bool}
    (h : audioDecodeFrame samples = some msg) :
    48 ≤ samples.length ∧
    0 < bitsToNat (audioHeaderBits samples) ∧
    bitsToNat (audioHeaderBits samples) ≤ samples.length - 48 ∧
    bitsToNat (audioHeaderBits samples) ≤ 1000000 ∧
    msg = (List.range (bitsToNat (audioHeaderBits samples))).map
      fun k => decide ((samples.getD (32 + k) 0) &&& 1 = 1) := by
  unfold audioDecodeFrame at h
  by_cases hlen : samples.length < 48
  · rw [if_pos hlen] at h
    exact absurd h (by simp)
  · rw [if_neg hlen] at h
    by_cases hbad : bitsToNat (audioHeaderBits samples) = 0 ∨
        bitsToNat (audioHeaderBits samples) > samples.length - 48 ∨
        bitsToNat (audioHeaderBits samples) > 1000000
    · rw [if_pos hbad] at h
      exact absurd h (by simp)
    · rw [if_neg hbad] at h
      push_neg at hbad
      refine ⟨by omega, by omega, by omega, by omega, ?_⟩
      have hmsg := (Option.some_inj.mp h).symm
      rw [hmsg]
      apply filterMap_if_eq_map
      intro k hk
      have hk' := List.mem_range.mp hk
      omega

/-! ### Marker lemmas -/

theorem markerPre_isPrefixOf (l : List Nat) : markerPre.isPrefixOf (markerPre ++ l) = true := by
  simp [markerPre, List.isPrefixOf, List.cons_append]

theorem markerSuf_isSuffixOf (l : List Nat) : markerSuf.isSuffixOf (l ++ markerSuf) = true := by
  simp [markerSuf, List.isSuffixOf, List.isPrefixOf, List.reverse_append]

theorem unwrap_marked (plain : List Nat) :
    (((markerPre ++ plain ++ markerSuf).take ((markerPre ++ plain ++ markerSuf).length - 8)).drop 8)
      = plain := by
  have hlen : (markerPre ++ plain ++ markerSuf).length = 16 + plain.length := by
    simp [markerPre, markerSuf]
    omega
  rw [hlen, show 16 + plain.length - 8 = 8 + plain.length by omega]
  rw [← List.take_drop]
  have hshape : markerPre ++ plain ++ markerSuf = markerPre ++ (plain ++ markerSuf) := by
    simp [List.append_assoc]
  rw [hshape, List.drop_left' (by simp [markerPre])]
  rw [List.take_left' rfl]

/-! ### Decryption helper -/

theorem decryptText_of_some {aesD : List Nat → List Nat → Option (List Nat)}
    {ct pass d : List Nat} (hct : ct ≠ []) (hpass : pass ≠ [])
    (hd : aesD ct pass = some d) :
    decryptText aesD ct pass =
      if markerPre.isPrefixOf d && markerSuf.isSuffixOf d then
        .value (some ((d.take (d.length - 8)).drop 8))
      else .value none := by
  unfold decryptText
  rw [if_neg (by simp [hct, hpass]), hd]

/-! ### Claim theorems -/

/-- C1: full round-trip on the image path.  For every non-empty plaintext and
password, and every RGBA carrier (`pixels.length = 4*width*height`, byte
entries) whose capacity `width*height` is at least the frame bit length,
embedding the frame of the encrypted text, extracting the LSBs, unframing
with `extractDataFromBinary` and decrypting with the same password returns
exactly the original plaintext.  The external AES cipher is abstracted by
`aesE`/`aesD` with the CryptoJS guarantees as hypotheses: decryption with the
same password inverts encryption, and the Base64 ciphertext is non-empty,
NUL-free, 8-bit, and shorter than 2^29 characters. -/
theorem roundtrip_image_extract_decrypt
    (aesE : List Nat → List Nat → List Nat) (aesD : List Nat → List Nat → Option (List Nat))
    (plainText password : List Nat) (width height : Nat) (pixels : List Nat)
    (hplain : plainText ≠ []) (hpass : password ≠ [])
    (hinv : aesD (aesE (markerPre ++ plainText ++ markerSuf) password) password
      = some (markerPre ++ plainText ++ markerSuf))
    (hctne : aesE (markerPre ++ plainText ++ markerSuf) password ≠ [])
    (hctsz : (aesE (markerPre ++ plainText ++ markerSuf) password).length < 2 ^ 29)
    (hctab : ∀ c ∈ aesE (markerPre ++ plainText ++ markerSuf) password, 0 < c ∧ c ≤ 255)
    (hpx : pixels.length = 4 * (width * height))
    (hbyte : ∀ v ∈ pixels, v < 256)
    (hcap : (prepareDataForEmbedding (aesE (markerPre ++ plainText ++ markerSuf) password)).length
      ≤ width * height) :
    ∃ ct out,
      encryptText aesE plainText password = .value ct ∧
      imageEncode width height pixels (prepareDataForEmbedding ct) = some out ∧
      extractDataFromBinary (extractBitsImage out width height) = some ct ∧
      decryptText aesD ct password = .value (some plainText) := by
  refine ⟨aesE (markerPre ++ plainText ++ markerSuf) password,
    embedBitsImage pixels
      (prepareDataForEmbedding (aesE (markerPre ++ plainText ++ markerSuf) password)),
    ?_, ?_, ?_, ?_⟩
  · unfold encryptText
    rw [if_neg (by simp [hplain, hpass])]
  · unfold imageEncode
    rw [if_neg (by omega)]
  · obtain ⟨R, hR⟩ := extract_embed hpx hbyte hcap
    rw [hR]
    exact extractData_of_frame hctne hctsz hctab
  · rw [decryptText_of_some hctne hpass hinv]
    have hpre : markerPre.isPrefixOf (markerPre ++ plainText ++ markerSuf) = true := by
      rw [List.append_assoc]
      exact markerPre_isPrefixOf _
    have hsuf : markerSuf.isSuffixOf (markerPre ++ plainText ++ markerSuf) = true :=
      markerSuf_isSuffixOf _
    rw [hpre, hsuf]
    simp only [Bool.and_self, if_true]
    rw [unwrap_marked]

/-- Witness for C1: the concrete pipeline with the identity cipher,
plaintext "hi" (codes 104, 105), password "pw" (codes 112, 119) and a
192-pixel all-7 RGBA carrier; the 18-character marked ciphertext frames to
exactly 192 bits. -/
theorem roundtrip_image_extract_decrypt_witness :
    ∃ ct out,
      encryptText (fun m _ => m) [104, 105] [112, 119] = .value ct ∧
      imageEncode 192 1 (List.replicate 768 7) (prepareDataForEmbedding ct) = some out ∧
      extractDataFromBinary (extractBitsImage out 192 1) = some ct ∧
      decryptText (fun c _ => some c) ct [112, 119] = .value (some [104, 105]) :=
  roundtrip_image_extract_decrypt (fun m _ => m) (fun c _ => some c)
    [104, 105] [112, 119] 192 1 (List.replicate 768 7)
    (by decide) (by decide) rfl (by decide) (by decide) (by decide)
    (by rw [List.length_replicate])
    (fun v hv => by rw [List.eq_of_mem_replicate hv]; omega)
    (by rw [(frame_parts (by decide) (by decide)).2]; decide)

/-- C2 (amended): capacity boundary as the code implements it.  For a
non-empty 8-bit ciphertext `C`, `canFitInImage C width height` holds exactly
when the whole frame (48 + 8*len(C) bits) fits in `width*height` bits — i.e.
frame_bit_length <= N, not N - 48 — and the image embed path rejects with
"Message too long" exactly when the frame exceeds `width*height` bits,
embedding (with no prior mutation) otherwise. -/
theorem capacity_check_amended
    (C : List Nat) (width height : Nat) (pixels : List Nat) (bits : List Bool)
    (hne : C ≠ []) (hab : ∀ c ∈ C, c ≤ 255) (hsz : C.length < 2 ^ 29) :
    (canFitInImage C width height = true ↔
      (prepareDataForEmbedding C).length ≤ width * height) ∧
    (imageEncode width height pixels bits = none ↔ width * height < bits.length) ∧
    (bits.length ≤ width * height →
      imageEncode width height pixels bits = some (embedBitsImage pixels bits)) := by
  have hflen := (frame_parts hsz hab).2
  have hpos : 0 < C.length := List.length_pos.mpr hne
  refine ⟨?_, ?_, ?_⟩
  · unfold canFitInImage calculateImageCapacity
    rw [hflen, decide_eq_true_iff]
    rw [Nat.le_div_iff_mul_le (by omega)]
    omega
  · unfold imageEncode
    split
    next hgt => simpa using (by omega : width * height < bits.length)
    next hgt => simp; omega
  · intro hle
    unfold imageEncode
    rw [if_neg (by omega)]

/-- C2 counterexample: for a 10x10 carrier (N = 100), `canFitInImage "A"` is
true although the frame of "A" is 56 bits > N - 48 = 52, and embedding a
frame of N - 47 = 53 bits succeeds rather than failing with
CapacityExceeded. -/
theorem capacity_check_counterexample :
    canFitInImage [65] 10 10 = true ∧
    (prepareDataForEmbedding [65]).length = 56 ∧
    ¬(56 ≤ 10 * 10 - 48) ∧
    imageEncode 10 10 (List.replicate 400 0) (List.replicate 53 true) ≠ none := by
  refine ⟨by decide, by decide, by decide, ?_⟩
  unfold imageEncode
  rw [if_neg (by rw [List.length_replicate]; omega)]
  exact fun h => Option.noConfusion h

/-- Witness for C2 (amended), instantiated at ciphertext "A", a 10x10
carrier, and a one-bit frame. -/
theorem capacity_check_amended_witness :
    (canFitInImage [65] 10 10 = true ↔ (prepareDataForEmbedding [65]).length ≤ 10 * 10) ∧
    (imageEncode 10 10 [1, 2, 3, 4] [true] = none ↔ 10 * 10 < ([true] : List Bool).length) :=
  ⟨(capacity_check_amended [65] 10 10 [1, 2, 3, 4] [true] (by decide) (by decide) (by decide)).1,
   (capacity_check_amended [65] 10 10 [1, 2, 3, 4] [true] (by decide) (by decide) (by decide)).2.1⟩

/-- C4 (amended): unframe length validation as implemented.  On the image
path, for nonempty raw bits, `extractDataFromBinary` fails exactly when
`L = 0` or `L > len - 32` — there is no 1,000,000-bit sanity bound — and
otherwise decodes bits [32, 32+L).  On the audio path the decode fails
exactly when the buffer has fewer than 48 samples, `L = 0`,
`L > samples.length - 48` (not `- 32`), or `L > 1,000,000`. -/
theorem unframe_validation_amended (binary : List Bool) (samples : List Nat)
    (hne : binary ≠ []) :
    (extractDataFromBinary binary = none ↔
      (bitsToNat (binary.take 32) = 0 ∨ binary.length - 32 < bitsToNat (binary.take 32))) ∧
    (extractDataFromBinary binary ≠ none →
      extractDataFromBinary binary
        = some (binaryToString ((binary.drop 32).take (bitsToNat (binary.take 32))))) ∧
    (audioDecodeFrame samples = none ↔
      (samples.length < 48 ∨ bitsToNat (audioHeaderBits samples) = 0 ∨
       samples.length - 48 < bitsToNat (audioHeaderBits samples) ∨
       1000000 < bitsToNat (audioHeaderBits samples))) := by
  refine ⟨extractData_none_iff hne, ?_, audioDecodeFrame_none_iff samples⟩
  intro hnn
  by_cases hbad : bitsToNat (binary.take 32) = 0 ∨
      binary.length - 32 < bitsToNat (binary.take 32)
  · exact absurd ((extractData_none_iff hne).mpr hbad) hnn
  · push_neg at hbad
    exact extractData_some_decode hne hbad.1 hbad.2

/-- C4 counterexample: the image path accepts a header length of 1,000,001
bits — above the claimed 1,000,000-bit sanity bound — when the input is long
enough, returning a decoded value instead of the failure value. -/
theorem unframe_validation_counterexample :
    1000000 <
      bitsToNat ((padStartZeros 32 (natToBinary 1000001)
        ++ List.replicate 1000001 true).take 32) ∧
    extractDataFromBinary
      (padStartZeros 32 (natToBinary 1000001) ++ List.replicate 1000001 true) ≠ none := by
  have hhl : (padStartZeros 32 (natToBinary 1000001)).length = 32 :=
    frame_header_length (by norm_num)
  have htake : (padStartZeros 32 (natToBinary 1000001)
      ++ List.replicate 1000001 true).take 32 = padStartZeros 32 (natToBinary 1000001) :=
    List.take_left' hhl
  have hval : bitsToNat ((padStartZeros 32 (natToBinary 1000001)
      ++ List.replicate 1000001 true).take 32) = 1000001 := by
    rw [htake, bitsToNat_padStart, bitsToNat_natToBinary]
  have hlen : (padStartZeros 32 (natToBinary 1000001)
      ++ List.replicate 1000001 true).length = 1000033 := by
    rw [List.length_append, hhl, List.length_replicate]
  have hne : padStartZeros 32 (natToBinary 1000001) ++ List.replicate 1000001 true ≠ [] := by
    intro h
    rw [h] at hlen
    simp at hlen
  refine ⟨by rw [hval]; omega, ?_⟩
  rw [extractData_some_decode hne (by rw [hval]; omega) (by rw [hval]; omega)]
  exact fun h => Option.noConfusion h

/-- Witness for C4 (amended) at a one-bit raw string and a one-sample
buffer. -/
theorem unframe_validation_amended_witness :
    (extractDataFromBinary [true] = none ↔
      (bitsToNat (([true] : List Bool).take 32) = 0 ∨
       ([true] : List Bool).length - 32 < bitsToNat (([true] : List Bool).take 32))) ∧
    (audioDecodeFrame [0] = none ↔
      (([0] : List Nat).length < 48 ∨ bitsToNat (audioHeaderBits [0]) = 0 ∨
       ([0] : List Nat).length - 48 < bitsToNat (audioHeaderBits [0]) ∨
       1000000 < bitsToNat (audioHeaderBits [0]))) :=
  ⟨(unframe_validation_amended [true] [0] (by decide)).1,
   (unframe_validation_amended [true] [0] (by decide)).2.2⟩

/-- C10: the audio decode path rejects buffers of fewer than 48 samples
before any header processing, and whenever the frame stage accepts a header
length L, L <= samples.length - 48 holds, every read index 32+k with k < L is
within the buffer, and the message bits are exactly the low bits at indices
[32, 32+L). -/
theorem audio_decode_bounds (samples : List Nat) :
    (samples.length < 48 → audioDecodeFrame samples = none ∧ audioDecode samples = none) ∧
    (∀ msg, audioDecodeFrame samples = some msg →
      bitsToNat (audioHeaderBits samples) ≤ samples.length - 48 ∧
      (∀ k, k < bitsToNat (audioHeaderBits samples) → 32 + k < samples.length) ∧
      msg = (List.range (bitsToNat (audioHeaderBits samples))).map
        fun k => decide ((samples.getD (32 + k) 0) &&& 1 = 1)) := by
  constructor
  · intro h
    have h1 : audioDecodeFrame samples = none := by
      unfold audioDecodeFrame
      rw [if_pos h]
    refine ⟨h1, ?_⟩
    unfold audioDecode
    rw [h1]
  · intro msg hmsg
    obtain ⟨h48, hpos, hle, h1e6, hform⟩ := audioDecodeFrame_some hmsg
    exact ⟨hle, fun k hk => by omega, hform⟩

/-- Witness for C10 at a 49-sample buffer whose header encodes L = 1. -/
theorem audio_decode_bounds_witness :
    bitsToNat (audioHeaderBits (List.replicate 31 0 ++ [1] ++ List.replicate 17 0))
      ≤ (List.replicate 31 0 ++ [1] ++ List.replicate 17 0).length - 48 ∧
    ([false] : List Bool) =
      (List.range (bitsToNat (audioHeaderBits
          (List.replicate 31 0 ++ [1] ++ List.replicate 17 0)))).map
        fun k => decide (((List.replicate 31 0 ++ [1] ++ List.replicate 17 0).getD
          (32 + k) 0) &&& 1 = 1) :=
  ⟨((audio_decode_bounds (List.replicate 31 0 ++ [1] ++ List.replicate 17 0)).2 [false]
      (by decide)).1,
   ((audio_decode_bounds (List.replicate 31 0 ++ [1] ++ List.replicate 17 0)).2 [false]
      (by decide)).2.2⟩

/-- C3 (amended): for every NONEMPTY ciphertext and password, `decryptText`
never throws; it returns the unwrapped text exactly when AES decryption
succeeds and the result starts with "NEBULA::" and ends with "::NEBULA"
(so a wrong password yields the failure value unless the decrypted bytes
happen to be marker-wrapped), and the failure value `null` otherwise.  With
an empty ciphertext or password it throws (see the counterexample). -/
theorem decrypt_failure_amended (aesD : List Nat → List Nat → Option (List Nat))
    (ct pass : List Nat) (hct : ct ≠ []) (hpass : pass ≠ []) :
    decryptText aesD ct pass ≠ .thrown ∧
    (∀ m, decryptText aesD ct pass = .value (some m) ↔
      ∃ d, aesD ct pass = some d ∧ markerPre.isPrefixOf d = true ∧
        markerSuf.isSuffixOf d = true ∧ m = (d.take (d.length - 8)).drop 8) ∧
    (decryptText aesD ct pass = .value none ↔
      ∀ d, aesD ct pass = some d →
        (markerPre.isPrefixOf d = false ∨ markerSuf.isSuffixOf d = false)) := by
  cases haes : aesD ct pass with
  | none =>
    have hval : decryptText aesD ct pass = .value none := by
      unfold decryptText
      rw [if_neg (by simp [hct, hpass]), haes]
    rw [hval]
    refine ⟨by simp, ?_, ?_⟩
    · intro m
      constructor
      · intro h
        exact absurd h (by simp)
      · rintro ⟨d, hd, -⟩
        exact absurd hd (by simp)
    · constructor
      · intro _ d hd
        exact absurd hd (by simp)
      · intro _
        rfl
  | some d =>
    rw [decryptText_of_some hct hpass haes]
    by_cases hmark : markerPre.isPrefixOf d && markerSuf.isSuffixOf d
    · rw [if_pos hmark]
      rw [Bool.and_eq_true] at hmark
      refine ⟨by simp, ?_, ?_⟩
      · intro m
        constructor
        · intro h
          have hm : some ((d.take (d.length - 8)).drop 8) = some m := by
            injection h
          exact ⟨d, rfl, hmark.1, hmark.2, (Option.some_inj.mp hm).symm⟩
        · rintro ⟨d', hd', -, -, hm⟩
          have hdd : d = d' := Option.some_inj.mp hd'
          subst hdd
          rw [hm]
      · constructor
        · intro h
          have h1 : some ((d.take (d.length - 8)).drop 8) = (none : Option (List Nat)) := by
            injection h
          exact absurd h1 (by simp)
        · intro h
          rcases h d rfl with h1 | h1
          · rw [hmark.1] at h1
            exact absurd h1 (by simp)
          · rw [hmark.2] at h1
            exact absurd h1 (by simp)
    · rw [if_neg hmark]
      rw [Bool.and_eq_true, not_and_or] at hmark
      refine ⟨by simp, ?_, ?_⟩
      · intro m
        constructor
        · intro h
          have h1 : (none : Option (List Nat)) = some m := by
            injection h
          exact absurd h1 (by simp)
        · rintro ⟨d', hd', hp, hs, -⟩
          have hdd : d = d' := Option.some_inj.mp hd'
          subst hdd
          rcases hmark with h1 | h1
          · exact absurd hp h1
          · exact absurd hs h1
      · constructor
        · intro _ d' hd'
          have hdd : d = d' := Option.some_inj.mp hd'
          subst hdd
          rcases hmark with h1 | h1
          · exact Or.inl (Bool.eq_false_iff.mpr h1)
          · exact Or.inr (Bool.eq_false_iff.mpr h1)
        · intro _
          rfl

/-- C3 counterexample: `decryptText` with an empty password throws
(`if (!encryptedText || !password) throw ...`), contradicting "for every
ciphertext string and password, decryptText never raises". -/
theorem decrypt_failure_counterexample :
    decryptText (fun _ _ => none) [49] [] = .thrown := by
  decide

/-- Witness for C3 (amended): a nonempty ciphertext/password pair does not
throw. -/
theorem decrypt_failure_amended_witness :
    decryptText (fun _ _ => some [1]) [49] [50] ≠ .thrown :=
  (decrypt_failure_amended (fun _ _ => some [1]) [49] [50] (by decide) (by decide)).1

/-- C5 (amended): frame layout for 8-bit ciphertexts SHORTER than 2^29
characters: the frame is exactly 32 + 8*len(C) + 16 bits — a 32-bit header
whose value is the payload bit length 8*len(C), the payload bits, then the
constant 16-bit delimiter.  (At length >= 2^29 the header needs more than 32
bits and `padStart` does not truncate, so the layout breaks; see the
counterexample.) -/
theorem frame_layout_amended (C : List Nat) (hab : ∀ c ∈ C, c ≤ 255)
    (hsz : C.length < 2 ^ 29) :
    (prepareDataForEmbedding C).length = 32 + 8 * C.length + 16 ∧
    bitsToNat ((prepareDataForEmbedding C).take 32) = 8 * C.length ∧
    ((prepareDataForEmbedding C).drop 32).take (8 * C.length) = stringToBinary C ∧
    (prepareDataForEmbedding C).drop (32 + 8 * C.length) = END_DELIMITER := by
  obtain ⟨hfr, hflen⟩ := frame_parts hsz hab
  have hpl := stringToBinary_length_of_bytes hab
  have h32 : 8 * C.length < 2 ^ 32 := by omega
  have hhl := frame_header_length h32
  have hshape : prepareDataForEmbedding C
      = padStartZeros 32 (natToBinary (8 * C.length))
        ++ (stringToBinary C ++ END_DELIMITER) := by
    rw [hfr, List.append_assoc]
  refine ⟨by omega, ?_, ?_, ?_⟩
  · rw [hshape, List.take_left' hhl, bitsToNat_padStart, bitsToNat_natToBinary]
  · rw [hshape, List.drop_left' hhl, List.take_left' hpl]
  · rw [hfr, List.drop_left' (by rw [List.length_append, hhl, hpl])]

/-- C5 counterexample: for a ciphertext of 2^29 characters the payload is
2^32 bits, `(2^32).toString(2)` has 33 digits, `padStart(32, '0')` leaves it
at 33, and the frame is 33 + 2^32 + 16 bits, not 32 + 2^32 + 16. -/
theorem frame_layout_counterexample :
    (prepareDataForEmbedding (List.replicate (2 ^ 29) 65)).length
      ≠ 32 + 8 * (List.replicate (2 ^ 29) (65 : Nat)).length + 16 := by
  have hab : ∀ c ∈ List.replicate (2 ^ 29) (65 : Nat), c ≤ 255 := by
    intro c hc
    rw [List.eq_of_mem_replicate hc]
    omega
  have hpl := stringToBinary_length_of_bytes hab
  rw [List.length_replicate] at hpl
  have h8 : 8 * 2 ^ 29 = 2 ^ 32 := by norm_num
  have hhd : (natToBinary (2 ^ 32)).length = 33 := by
    unfold natToBinary
    rw [if_neg (by positivity)]
    exact natBits_two_pow_length 32
  simp only [prepareDataForEmbedding, List.length_append]
  rw [hpl, h8, padStartZeros_length, hhd, END_DELIMITER_length, List.length_replicate]
  norm_num

/-- Witness for C5 (amended) at the two-character ciphertext [104, 105]. -/
theorem frame_layout_amended_witness :
    (prepareDataForEmbedding [104, 105]).length = 32 + 8 * ([104, 105] : List Nat).length + 16 ∧
    bitsToNat ((prepareDataForEmbedding [104, 105]).take 32) = 8 * ([104, 105] : List Nat).length ∧
    ((prepareDataForEmbedding [104, 105]).drop 32).take (8 * ([104, 105] : List Nat).length)
      = stringToBinary [104, 105] ∧
    (prepareDataForEmbedding [104, 105]).drop (32 + 8 * ([104, 105] : List Nat).length)
      = END_DELIMITER :=
  frame_layout_amended [104, 105] (by decide) (by decide)

/-- C6: non-destructive embedding.  When the capacity check passes, image
embedding preserves the buffer length (no write outside the carrier), leaves
every non-blue byte and every blue byte beyond the embedded bits unchanged,
and changes every byte by at most its least-significant bit; audio embedding
likewise preserves length, leaves samples at indices >= bits-length
unchanged, and changes each sample pattern by at most its low bit. -/
theorem embed_nondestructive
    (width height : Nat) (pixels : List Nat) (bits : List Bool) (out : List Nat)
    (samples : List Nat) (abits : List Bool) (aout : List Nat)
    (hbyte : ∀ v ∈ pixels, v < 256) (hsamp : ∀ v ∈ samples, v < 65536)
    (henc : imageEncode width height pixels bits = some out)
    (haenc : audioEncode samples abits = some aout) :
    out.length = pixels.length ∧
    (∀ j, j < pixels.length → j % 4 ≠ 2 → out.getD j 0 = pixels.getD j 0) ∧
    (∀ j, j < pixels.length → bits.length ≤ j / 4 → out.getD j 0 = pixels.getD j 0) ∧
    (∀ j, j < pixels.length → out.getD j 0 / 2 = pixels.getD j 0 / 2) ∧
    aout.length = samples.length ∧
    (∀ i, i < samples.length → abits.length ≤ i → aout.getD i 0 = samples.getD i 0) ∧
    (∀ i, i < samples.length → aout.getD i 0 / 2 = samples.getD i 0 / 2) := by
  have hout : out = embedBlueFrom bits 0 pixels := by
    unfold imageEncode at henc
    by_cases hgt : bits.length > width * height
    · rw [if_pos hgt] at henc
      exact absurd henc (by simp)
    · rw [if_neg hgt] at henc
      exact (Option.some_inj.mp henc).symm
  have haout : aout = embedAudioFrom abits 0 samples := by
    unfold audioEncode at haenc
    by_cases hgt : abits.length > samples.length
    · rw [if_pos hgt] at haenc
      exact absurd haenc (by simp)
    · rw [if_neg hgt] at haenc
      exact (Option.some_inj.mp haenc).symm
  subst hout haout
  have hbmem : ∀ j, j < pixels.length → pixels.getD j 0 < 256 := by
    intro j hj
    rw [List.getD_eq_getElem pixels 0 hj]
    exact hbyte _ (List.getElem_mem hj)
  have hsmem : ∀ i, i < samples.length → samples.getD i 0 < 65536 := by
    intro i hi
    rw [List.getD_eq_getElem samples 0 hi]
    exact hsamp _ (List.getElem_mem hi)
  have hgetp : ∀ j, j < pixels.length →
      (embedBlueFrom bits 0 pixels).getD j 0 =
        if j % 4 = 2 ∧ j / 4 < bits.length
        then jsByteWrite (pixels.getD j 0) (bits.getD (j / 4) false)
        else pixels.getD j 0 := by
    intro j hj
    have h := embedBlueFrom_getD bits pixels 0 j hj
    simpa using h
  have hgeta : ∀ i, i < samples.length →
      (embedAudioFrom abits 0 samples).getD i 0 =
        if i < abits.length
        then jsWrite16 (samples.getD i 0) (abits.getD i false)
        else samples.getD i 0 := by
    intro i hi
    have h := embedAudioFrom_getD abits samples 0 i hi
    simpa using h
  refine ⟨embedBlueFrom_length bits 0 pixels, ?_, ?_, ?_,
    embedAudioFrom_length abits 0 samples, ?_, ?_⟩
  · intro j hj hmod
    rw [hgetp j hj, if_neg (by omega)]
  · intro j hj hge
    rw [hgetp j hj, if_neg (by omega)]
  · intro j hj
    rw [hgetp j hj]
    by_cases hc : j % 4 = 2 ∧ j / 4 < bits.length
    · rw [if_pos hc]
      exact jsByteWrite_div2 (hbmem j hj) _
    · rw [if_neg hc]
  · intro i hi hge
    rw [hgeta i hi, if_neg (by omega)]
  · intro i hi
    rw [hgeta i hi]
    by_cases hc : i < abits.length
    · rw [if_pos hc]
      exact jsWrite16_div2 (hsmem i hi) _
    · rw [if_neg hc]

/-- Witness for C6 on a one-pixel RGBA carrier and a two-sample audio
carrier. -/
theorem embed_nondestructive_witness :
    ([10, 20, 31, 40] : List Nat).length = ([10, 20, 30, 40] : List Nat).length ∧
    ([5, 6] : List Nat).length = ([5, 6] : List Nat).length :=
  ⟨(embed_nondestructive 1 1 [10, 20, 30, 40] [true] [10, 20, 31, 40] [5, 6] [true] [5, 6]
      (by decide) (by decide) (by decide) (by decide)).1,
   (embed_nondestructive 1 1 [10, 20, 30, 40] [true] [10, 20, 31, 40] [5, 6] [true] [5, 6]
      (by decide) (by decide) (by decide) (by decide)).2.2.2.2.1⟩

/-- C7 (amended): `stringToBinary` emits exactly 8 bits per character,
most-significant-bit first, IF AND ONLY IF every code point is at most 255;
a code point above 255 contributes its full (longer) binary representation —
`padStart(8)` pads but never truncates — so the output is longer than
8*len.  For all-8-bit strings each 8-bit group decodes back to the
corresponding character code. -/
theorem stringToBinary_width_amended (s : List Nat) :
    ((stringToBinary s).length = 8 * s.length ↔ ∀ c ∈ s, c ≤ 255) ∧
    ((∀ c ∈ s, c ≤ 255) → ∀ i, i < s.length →
      bitsToNat (((stringToBinary s).drop (8 * i)).take 8) = s.getD i 0) := by
  constructor
  · constructor
    · intro hlen
      by_contra hcon
      push_neg at hcon
      obtain ⟨c, hc, hge⟩ := hcon
      have := stringToBinary_length_gt hc (by omega)
      omega
    · exact stringToBinary_length_of_bytes
  · intro hab
    induction s with
    | nil =>
      intro i hi
      simp at hi
    | cons c rest ih =>
      intro i hi
      have hc : c ≤ 255 := hab c (by simp)
      have hbl : (padStartZeros 8 (natToBinary c)).length = 8 := charBlock_length hc
      cases i with
      | zero =>
        simp only [stringToBinary, Nat.mul_zero, List.drop_zero, List.getD_cons_zero]
        rw [List.take_left' hbl, charBlock_val]
      | succ i' =>
        simp only [stringToBinary, List.getD_cons_succ]
        have hdrop : (padStartZeros 8 (natToBinary c) ++ stringToBinary rest).drop (8 * (i' + 1))
            = (stringToBinary rest).drop (8 * i') := by
          rw [show 8 * (i' + 1) = 8 + 8 * i' by ring]
          rw [← List.drop_drop]
          rw [List.drop_left' hbl]
        rw [hdrop]
        exact ih (fun x hx => hab x (by simp [hx])) i' (by simpa using hi)

/-- C7 counterexample: the character with code 256 is not truncated to its
low 8 bits (which would give 00000000): `stringToBinary` emits its full
9-bit representation 100000000, so the output length is 9, not 8. -/
theorem stringToBinary_truncation_counterexample :
    (stringToBinary [256]).length = 9 ∧ stringToBinary [256] ≠ List.replicate 8 false := by
  decide

/-- Witness for C7 (amended): a string containing code point 300 encodes to
more than 8 bits per character, an all-ASCII string to exactly 8. -/
theorem stringToBinary_width_amended_witness :
    (stringToBinary [65, 300]).length ≠ 8 * ([65, 300] : List Nat).length ∧
    (stringToBinary [65, 66]).length = 8 * ([65, 66] : List Nat).length :=
  ⟨fun h => by
      have := (stringToBinary_width_amended [65, 300]).1.mp h
      exact absurd (this 300 (by decide)) (by decide),
   (stringToBinary_width_amended [65, 66]).1.mpr (by decide)⟩

/-- C8: `binaryToString` consumes successive 8-bit groups in order (dropping
a trailing partial group) and decodes each group to the character with that
code, stopping at the first zero-valued group and returning only the
characters decoded before it: it equals takeWhile (nonzero) over the 8-bit
group values. -/
theorem binaryToString_nul_terminator (bits : List Bool) :
    binaryToString bits = (byteChunks bits).takeWhile (fun c => c != 0) := by
  suffices h : ∀ n (bits : List Bool), bits.length ≤ n →
      binaryToString bits = (byteChunks bits).takeWhile (fun c => c != 0) from
    h bits.length bits le_rfl
  intro n
  induction n with
  | zero =>
    intro bits hlen
    have : bits = [] := List.eq_nil_of_length_eq_zero (by omega)
    subst this
    rfl
  | succ n ih =>
    intro bits hlen
    rcases bits with _ | ⟨b0, bits⟩; · rfl
    rcases bits with _ | ⟨b1, bits⟩; · rfl
    rcases bits with _ | ⟨b2, bits⟩; · rfl
    rcases bits with _ | ⟨b3, bits⟩; · rfl
    rcases bits with _ | ⟨b4, bits⟩; · rfl
    rcases bits with _ | ⟨b5, bits⟩; · rfl
    rcases bits with _ | ⟨b6, bits⟩; · rfl
    rcases bits with _ | ⟨b7, rest⟩; · rfl
    simp only [binaryToString, byteChunks, List.takeWhile_cons]
    by_cases hv : bitsToNat [b0, b1, b2, b3, b4, b5, b6, b7] = 0
    · simp [hv]
    · simp only [hv, if_neg hv, bne_iff_ne, ne_eq, not_false_eq_true, if_true]
      rw [ih rest (by simp at hlen; omega)]
      simp [hv]

/-- Witness for C8: a NUL byte followed by further bits decodes to the empty
string. -/
theorem binaryToString_nul_terminator_witness :
    binaryToString [false, false, false, false, false, false, false, false, true]
      = (byteChunks [false, false, false, false, false, false, false, false, true]).takeWhile
          (fun c => c != 0) :=
  binaryToString_nul_terminator [false, false, false, false, false, false, false, false, true]

/-- C9: `detectEmotion` lower-cases the text, counts warm-list and cold-list
words occurring as substrings, and returns warm exactly when the warm count
is strictly greater than the cold count and nonzero, cold exactly when the
cold count is strictly greater and nonzero, and neutral otherwise — in
particular on equal (including equal nonzero) counts. -/
theorem detectEmotion_classification (text : List Nat) :
    (detectEmotion text = .warm ↔ coldScore text < warmScore text ∧ 0 < warmScore text) ∧
    (detectEmotion text = .cold ↔ warmScore text < coldScore text ∧ 0 < coldScore text) ∧
    (warmScore text = coldScore text → detectEmotion text = .neutral) ∧
    (detectEmotion text = .neutral ↔
      ¬(coldScore text < warmScore text ∧ 0 < warmScore text) ∧
      ¬(warmScore text < coldScore text ∧ 0 < coldScore text)) := by
  unfold detectEmotion
  by_cases h1 : warmScore text > coldScore text ∧ warmScore text > 0
  · rw [if_pos h1]
    refine ⟨by simp; omega, by simp; omega, ?_, by simp; omega⟩
    intro he
    exfalso
    omega
  · rw [if_neg h1]
    by_cases h2 : coldScore text > warmScore text ∧ coldScore text > 0
    · rw [if_pos h2]
      refine ⟨by simp; omega, by simp; omega, ?_, by simp; omega⟩
      intro he
      exfalso
      omega
    · rw [if_neg h2]
      push_neg at h1 h2
      refine ⟨by simp; omega, by simp; omega, fun _ => rfl, by simp; omega⟩

/-- Witness for C9 at the text "love". -/
theorem detectEmotion_classification_witness :
    detectEmotion (strCodes "love") = .warm ↔
      coldScore (strCodes "love") < warmScore (strCodes "love") ∧
      0 < warmScore (strCodes "love") :=
  (detectEmotion_classification (strCodes "love")).1
